import Mathlib

set_option linter.unusedVariables false

/-!
Verification development for the Panorama image-stitching repository.

The C++ sources are shallowly embedded in Lean:
  * IEEE doubles and floats are modelled by the rationals; where a claim is
    about NaN or Inf production (division by zero), values are modelled by
    `Option Rat` with `none` standing for a non-finite value (NaN or Inf),
    so that every division records whether its divisor was zero.
  * the 3x3 transform matrices of ImageLib/Transform.cpp become functions
    `Fin 3 -> Fin 3 -> _`, loops become folds over index lists, and the
    loop bodies are translated statement by statement.
Several routines of this repository (alignPair, the loop bodies of
countInliers and leastSquaresFit, the feathering weight) are TODO stubs in
the source; their definitions below carry a doc comment starting with
"Modelled from the spec:" and follow the natural-language specification.
-/

/-- Scalar model for IEEE double values where non-finiteness matters:
`some q` is the finite value `q`, `none` is a non-finite value (NaN or Inf).
Arithmetic propagates non-finiteness; division by zero produces `none`. -/
abbrev DReal := Option ℚ

/-- Addition on the double model. -/
def dAdd : DReal → DReal → DReal
  | some a, some b => some (a + b)
  | _, _ => none

/-- Subtraction on the double model. -/
def dSub : DReal → DReal → DReal
  | some a, some b => some (a - b)
  | _, _ => none

/-- Multiplication on the double model. -/
def dMul : DReal → DReal → DReal
  | some a, some b => some (a * b)
  | _, _ => none

/-- Division on the double model: a zero divisor yields a non-finite value
(`0/0` is NaN, `x/0` is an infinity), as does any non-finite operand. -/
def dDiv : DReal → DReal → DReal
  | some a, some b => if b = 0 then none else some (a / b)
  | _, _ => none

/-- Strict comparison on the double model; IEEE comparisons involving a NaN
are false, which this Bool realises for every non-finite operand. -/
def dLt : DReal → DReal → Bool
  | some a, some b => decide (a < b)
  | _, _ => false

/-- Non-strict comparison on the double model, false on non-finite operands. -/
def dLe : DReal → DReal → Bool
  | some a, some b => decide (a ≤ b)
  | _, _ => false

/-- Truncation toward zero, as performed by a C cast from double to int.
The value on a non-finite input is arbitrary (the C program is undefined
there); the theorems below never depend on it. -/
def dTrunc : DReal → ℤ
  | some q => if q < 0 then ⌈q⌉ else ⌊q⌋
  | none => 0

/-- Floor on the double model, junk value on non-finite input. -/
def dFloor : DReal → ℤ
  | some q => ⌊q⌋
  | none => 0

/-- Matrix type of class CTransform3x3 (Transform.h): a 3x3 array of doubles,
here with exact rational entries. -/
abbrev Mat3 := Fin 3 → Fin 3 → ℚ

/-- Vector type of class CVector3 (Transform.h). -/
abbrev Vec3 := Fin 3 → ℚ

/-- Matrix over the NaN-tracking double model, used where a claim is about
non-finite results. -/
abbrev DMat3 := Fin 3 → Fin 3 → DReal

/-- Injection of an exact matrix into the double model. -/
def toD (M : Mat3) : DMat3 := fun i j => some (M i j)

/-- Embedding of the default constructor CVector3::CVector3 (Transform.cpp
lines 20-25).  The loop runs `for (int i = 1; i < 3; i++) m_array[i] = 0;`,
so only components 1 and 2 are written; component 0 keeps whatever value the
uninitialised memory held, modelled by the parameter `garbage`. -/
def cvector3Ctor (garbage : Fin 3 → ℚ) : Fin 3 → ℚ :=
  fun i => if 1 ≤ i.val then 0 else garbage i

/-- Embedding of the default constructor CTransform3x3::CTransform3x3:
the identity matrix, entry (i, j) set to `(i == j)`. -/
def ctransform3x3Ctor : Mat3 := fun i j => if i = j then 1 else 0

/-- Embedding of CTransform3x3::Translation: default-construct the identity,
then set entries [0][2] and [1][2]. -/
def Translation (tx ty : ℚ) : Mat3 :=
  fun i j =>
    if i = 0 ∧ j = 2 then tx
    else if i = 1 ∧ j = 2 then ty
    else ctransform3x3Ctor i j

/-- Embedding of CTransform3x3::operator*(const CVector3 &): for each row,
`sum = 0.0` then `sum += M[i][k] * v[k]` for k = 0, 1, 2. -/
def matVec (M : Mat3) (v : Vec3) : Vec3 :=
  fun i => ((0 + M i 0 * v 0) + M i 1 * v 1) + M i 2 * v 2

/-- Embedding of CTransform3x3::operator*(const CTransform3x3 &): each entry
is the running sum `sum += M0[i][k] * M1[k][j]` for k = 0, 1, 2. -/
def matMul (M0 M1 : Mat3) : Mat3 :=
  fun i j => ((0 + M0 i 0 * M1 0 j) + M0 i 1 * M1 1 j) + M0 i 2 * M1 2 j

/-- Row-vector application over the double model, the computation performed
on `p_src = Minv * p_dest` inside AccumulateBlend. -/
def dMatVec (M : DMat3) (v : Fin 3 → DReal) : Fin 3 → DReal :=
  fun i =>
    dAdd (dAdd (dAdd (some 0) (dMul (M i 0) (v 0))) (dMul (M i 1) (v 1)))
      (dMul (M i 2) (v 2))

namespace CTransform3x3

/-- Row operation of Inverse: `mult = M0[k][i]`, then for each column j,
`M0[k][j] -= mult * M0[i][j]` and `M1[k][j] -= mult * M1[i][j]`. -/
def elimRow (i k : Fin 3) (st : DMat3 × DMat3) : DMat3 × DMat3 :=
  let mult := st.1 k i
  ( fun r c => if r = k then dSub (st.1 r c) (dMul mult (st.1 i c)) else st.1 r c
  , fun r c => if r = k then dSub (st.2 r c) (dMul mult (st.2 i c)) else st.2 r c )

/-- Row normalisation of Inverse for pivot row i: scale row i of both
matrices by `row_inv = 1.0 / M0[i][i]` (no guard against a zero pivot,
faithful to the source) and overwrite `M0[i][i] = 1.0`. -/
def invNormalize (st : DMat3 × DMat3) (i : Fin 3) : DMat3 × DMat3 :=
  let row_inv := dDiv (some 1) (st.1 i i)
  let M0a : DMat3 := fun r c => if r = i then dMul (st.1 r c) row_inv else st.1 r c
  let M1a : DMat3 := fun r c => if r = i then dMul (st.2 r c) row_inv else st.2 r c
  let M0b : DMat3 := fun r c => if r = i ∧ c = i then some 1 else M0a r c
  (M0b, M1a)

/-- Forward-elimination step of Inverse for pivot row i: normalize the row,
then subtract multiples of row i from every lower row k > i. -/
def invForward (st : DMat3 × DMat3) (i : Fin 3) : DMat3 × DMat3 :=
  ([0, 1, 2] : List (Fin 3)).foldl
    (fun s k => if i < k then elimRow i k s else s) (invNormalize st i)

/-- Backward-elimination step of Inverse for pivot row i: subtract multiples
of row i from every upper row k < i. -/
def invBackward (st : DMat3 × DMat3) (i : Fin 3) : DMat3 × DMat3 :=
  ([0, 1, 2] : List (Fin 3)).foldl
    (fun s k => if k < i then elimRow i k s else s) st

/-- Embedding of CTransform3x3::Inverse (Transform.cpp lines 76-122):
un-pivoted Gaussian elimination on the pair (M0, M1), where M0 starts as the
input matrix and M1 as the identity; forward elimination for i = 0, 1, 2,
then backward elimination for i = 2, 1; the result is M1.  Every division
is unguarded: a zero pivot makes `1.0 / M0[i][i]` non-finite. -/
def Inverse (A : DMat3) : DMat3 :=
  let st1 := ([0, 1, 2] : List (Fin 3)).foldl invForward (A, toD ctransform3x3Ctor)
  let st2 := invBackward (invBackward st1 2) 1
  st2.2

end CTransform3x3

/-- Permutation matrix exchanging the first two axes: an invertible transform
whose un-pivoted elimination meets the zero pivot `M0[0][0] = 0`. -/
def singularPivotMat : Mat3 :=
  fun i j =>
    if i = 0 ∧ j = 1 then 1
    else if i = 1 ∧ j = 0 then 1
    else if i = 2 ∧ j = 2 then 1
    else 0

/-- Helper building a CVector3 value from three rationals. -/
def vec3 (a b c : ℚ) : Vec3 :=
  fun i => if i = 0 then a else if i = 1 then b else c

/-- Feature record (FeatureSet.h): only the fields the aligner reads. -/
structure Feature where
  id : ℤ
  x : ℤ
  y : ℤ
deriving Inhabited, DecidableEq

/-- FeatureMatch record (FeatureSet.h): two 1-based feature ids and a score. -/
structure FeatureMatch where
  id1 : ℤ
  id2 : ℤ
  score : ℚ
deriving Inhabited, DecidableEq

/-- FeatureSet: an ordered sequence of features. -/
abbrev FeatureSet := List Feature

/-- Location of the feature with 1-based id `i` in a feature set, as the
source accesses it: `f[i-1]`. -/
def featureLoc (fs : FeatureSet) (i : ℤ) : ℚ × ℚ :=
  let ft := fs.getD (i - 1).toNat default
  ((ft.x : ℚ), (ft.y : ℚ))

/-- Application of a homogeneous transform to a 2D point: multiply the
column (x, y, 1) by the matrix and dehomogenise. -/
def applyTrans (M : Mat3) (p : ℚ × ℚ) : ℚ × ℚ :=
  let v := matVec M (vec3 p.1 p.2 1)
  (v 0 / v 2, v 1 / v 2)

/-- Modelled from the spec: the classification inside the loop of
countInliers (FeatureAlign.cpp lines 85-96) is a TODO stub; following
spec 4.1a, match i is an inlier iff the location of f1[id1-1] mapped
through the candidate transform lies within squared Euclidean distance
RANSACthresh of the location of f2[id2-1]. -/
def inlierTest (f1 f2 : FeatureSet) (matchList : List FeatureMatch)
    (M : Mat3) (RANSACthresh : ℚ) (i : ℕ) : Bool :=
  let mt := matchList.getD i default
  let p1 := applyTrans M (featureLoc f1 mt.id1)
  let p2 := featureLoc f2 mt.id2
  decide ((p1.1 - p2.1) ^ 2 + (p1.2 - p2.2) ^ 2 ≤ RANSACthresh)

/-- Embedding of countInliers (FeatureAlign.cpp lines 77-100): the skeleton
clears the inlier list, iterates i over the match list, and for each inlier
increments the count and appends i; the per-match classification is the
spec-modelled `inlierTest`.  It returns the final count and inlier list; the
match list, taken by const reference in the source, is read only. -/
def countInliers (f1 f2 : FeatureSet) (matchList : List FeatureMatch)
    (M : Mat3) (RANSACthresh : ℚ) : ℕ × List ℕ :=
  (List.range matchList.length).foldl
    (fun st i =>
      if inlierTest f1 f2 matchList M RANSACthresh i then (st.1 + 1, st.2 ++ [i])
      else st)
    (0, [])

/-- Modelled from the spec: the body computing (xTrans, yTrans) in
leastSquaresFit (FeatureAlign.cpp lines 130-135) is a TODO stub; following
spec 4.1b, the displacement implied by inlier index i is
(f2.location - f1.location) for the features of match `matches[i]`. -/
def inlierDisplacement (f1 f2 : FeatureSet) (matchList : List FeatureMatch)
    (i : ℕ) : ℚ × ℚ :=
  let mt := matchList.getD i default
  let p1 := featureLoc f1 mt.id1
  let p2 := featureLoc f2 mt.id2
  (p2.1 - p1.1, p2.2 - p1.2)

/-- Embedding of leastSquaresFit (FeatureAlign.cpp lines 115-155): sum the
per-inlier displacements (spec-modelled `inlierDisplacement`, the loop body
being a TODO stub), then divide by `inliers.size()` with no emptiness guard
- on an empty inlier list this is the division 0.0/0, producing NaN - and
store the translation matrix into M; the function returns 0 in every case. -/
def leastSquaresFit (f1 f2 : FeatureSet) (matchList : List FeatureMatch)
    (inliers : List ℕ) : ℤ × DMat3 :=
  let s := inliers.foldl
    (fun uv i =>
      let d := inlierDisplacement f1 f2 matchList i
      (uv.1 + d.1, uv.2 + d.2)) ((0 : ℚ), (0 : ℚ))
  let u := dDiv (some s.1) (some ((inliers.length : ℚ)))
  let v := dDiv (some s.2) (some ((inliers.length : ℚ)))
  (0, fun i j =>
    if i = 0 ∧ j = 2 then u
    else if i = 1 ∧ j = 2 then v
    else if i = j then some 1 else some 0)

/-- Modelled from the spec: alignPair draws a minimal sample of one match
for the translation model and estimates the transform it implies, the exact
translation taking the sampled f1 feature onto its f2 partner. -/
def minimalTranslation (f1 f2 : FeatureSet) (matchList : List FeatureMatch)
    (s : ℕ) : Mat3 :=
  let d := inlierDisplacement f1 f2 matchList s
  Translation d.1 d.2

/-- Modelled from the spec: the body of alignPair (FeatureAlign.cpp lines
40-51) is a TODO stub.  Following spec 4.1, each RANSAC iteration draws a
minimal sample (here the randomness is an input: `samples` lists the chosen
match index of each iteration), estimates the implied translation, and
scores it by its inlier count; the hypothesis with the highest count is
kept, ties broken by first-found, and the output transform is the least
squares fit over the inliers of the best hypothesis. -/
def alignPair (f1 f2 : FeatureSet) (matchList : List FeatureMatch)
    (samples : List ℕ) (RANSACthresh : ℚ) : ℤ × DMat3 :=
  match samples with
  | [] => (0, toD ctransform3x3Ctor)
  | s0 :: rest =>
    let score := fun s =>
      (countInliers f1 f2 matchList (minimalTranslation f1 f2 matchList s)
        RANSACthresh).1
    let best := rest.foldl (fun b s => if score b < score s then s else b) s0
    let inl :=
      (countInliers f1 f2 matchList (minimalTranslation f1 f2 matchList best)
        RANSACthresh).2
    (0, (leastSquaresFit f1 f2 matchList inl).2)

/-- Embedding of the position-chaining loop of BlendPairs (Panorama.cpp
lines 188-208): the first image gets position (0, 0) and each further image
gets the previous position minus the displacement read from the previous
pair-list line.  The source indexes the CTransform3x3 field `position` with
the two-component semantics of the commented-out declaration
`float position[2]` (BlendImages.h line 36), so positions are modelled as
translation vectors. -/
def chainPositions : (ℚ × ℚ) → List (ℚ × ℚ) → List (ℚ × ℚ)
  | p, [] => [p]
  | p, r :: rs => p :: chainPositions (p.1 - r.1, p.2 - r.2) rs

/-- Absolute positions assigned by BlendPairs to the n+1 images named by a
pair list of n displacement lines, starting from (0, 0). -/
def blendPairsPositions (rels : List (ℚ × ℚ)) : List (ℚ × ℚ) :=
  chainPositions (0, 0) rels

/-- Lift of a two-component position to the translation matrix it denotes. -/
def positionMat (p : ℚ × ℚ) : Mat3 := Translation p.1 p.2

/-- Byte-image model for CByteImage: a shape and the pixel values of the
three colour bands the blender reads, as total functions (the source only
dereferences in-bounds addresses along the paths analysed here). -/
structure CImageModel where
  width : ℤ
  height : ℤ
  pix : ℤ → ℤ → Fin 3 → ℕ

/-- Accumulator model for the CFloatImage canvas: four bands (three colour
sums and a weight sum) of double-model values. -/
structure AccModel where
  width : ℤ
  height : ℤ
  pix : ℤ → ℤ → Fin 4 → DReal

/-- Embedding of CImageOf::PixelLerp (Image.inl lines 89-108): truncate the
coordinates with a C int cast, take the fractional parts t and u, and
bilinearly interpolate the four surrounding pixels of the band.  The
out-of-bounds printf of the source has no effect on the value. -/
def PixelLerp (img : CImageModel) (x y : DReal) (band : Fin 3) : DReal :=
  let xf := dTrunc x
  let yf := dTrunc y
  let t := dSub x (some (xf : ℚ))
  let u := dSub y (some (yf : ℚ))
  let p1 : ℚ := img.pix xf yf band
  let p2 : ℚ := img.pix (xf + 1) yf band
  let p3 : ℚ := img.pix xf (yf + 1) band
  let p4 : ℚ := img.pix (xf + 1) (yf + 1) band
  dAdd
    (dMul (dSub (some 1) u)
      (dAdd (dMul (dSub (some 1) t) (some p1)) (dMul t (some p2))))
    (dMul u
      (dAdd (dMul (dSub (some 1) t) (some p3)) (dMul t (some p4))))

/-- Largest finite single-precision float, the FLT_MAX initial value of the
running minima in ImageBoundingBox. -/
def fltMax : ℚ := (2 ^ 24 - 1) * 2 ^ 104

/-- Integer bounding box returned through the four output parameters of
ImageBoundingBox. -/
structure BBox where
  min_x : ℤ
  min_y : ℤ
  max_x : ℤ
  max_y : ℤ
deriving DecidableEq

/-- Embedding of ImageBoundingBox (BlendImages.cpp lines 45-114), statement
by statement: the four corners (0,0), (w-1,0), (0,h-1), (w-1,h-1) are mapped
through M; then every corner, including corners 1, 2 and 3, has its x and y
divided by the homogeneous coordinate of corner 0 (the source divides by
`corners[0][2]` in all eight divisions); the running minima start at FLT_MAX
and the running maxima start at 0.0; the results are floored and ceiled. -/
def ImageBoundingBox (img : CImageModel) (M : Mat3) : BBox :=
  let w : ℚ := (img.width : ℚ)
  let h : ℚ := (img.height : ℚ)
  let c0 := matVec M (vec3 0 0 1)
  let c1 := matVec M (vec3 (w - 1) 0 1)
  let c2 := matVec M (vec3 0 (h - 1) 1)
  let c3 := matVec M (vec3 (w - 1) (h - 1) 1)
  let w0 := c0 2
  let d0x := c0 0 / w0
  let d0y := c0 1 / w0
  let d1x := c1 0 / w0
  let d1y := c1 1 / w0
  let d2x := c2 0 / w0
  let d2y := c2 1 / w0
  let d3x := c3 0 / w0
  let d3y := c3 1 / w0
  let min_xf := min (min (min (min fltMax d0x) d1x) d2x) d3x
  let min_yf := min (min (min (min fltMax d0y) d1y) d2y) d3y
  let max_xf := max (max (max (max 0 d0x) d1x) d2x) d3x
  let max_yf := max (max (max (max 0 d0y) d1y) d2y) d3y
  ⟨⌊min_xf⌋, ⌊min_yf⌋, ⌈max_xf⌉, ⌈max_yf⌉⟩

/-- Bounding box as claim C6 describes it: each corner dehomogenised by its
own homogeneous coordinate, min and max taken over exactly the four corner
coordinates, floor-expanded minima and ceil-expanded maxima. -/
def ImageBoundingBoxClaimed (img : CImageModel) (M : Mat3) : BBox :=
  let w : ℚ := (img.width : ℚ)
  let h : ℚ := (img.height : ℚ)
  let c0 := matVec M (vec3 0 0 1)
  let c1 := matVec M (vec3 (w - 1) 0 1)
  let c2 := matVec M (vec3 0 (h - 1) 1)
  let c3 := matVec M (vec3 (w - 1) (h - 1) 1)
  let d0x := c0 0 / c0 2
  let d0y := c0 1 / c0 2
  let d1x := c1 0 / c1 2
  let d1y := c1 1 / c1 2
  let d2x := c2 0 / c2 2
  let d2y := c2 1 / c2 2
  let d3x := c3 0 / c3 2
  let d3y := c3 1 / c3 2
  ⟨⌊min (min (min d0x d1x) d2x) d3x⌋, ⌊min (min (min d0y d1y) d2y) d3y⌋,
    ⌈max (max (max d0x d1x) d2x) d3x⌉, ⌈max (max (max d0y d1y) d2y) d3y⌉⟩

/-- Amended description of ImageBoundingBox (the statement claim C6 is
corrected to): all four mapped corners are dehomogenised by the homogeneous
coordinate of corner 0, the minima also range over the initial value FLT_MAX
and the maxima also range over the initial value 0. -/
def ImageBoundingBoxAmended (img : CImageModel) (M : Mat3) : BBox :=
  let w : ℚ := (img.width : ℚ)
  let h : ℚ := (img.height : ℚ)
  let corners := [matVec M (vec3 0 0 1), matVec M (vec3 (w - 1) 0 1),
                  matVec M (vec3 0 (h - 1) 1), matVec M (vec3 (w - 1) (h - 1) 1)]
  let w0 := (matVec M (vec3 0 0 1)) 2
  let xs := corners.map (fun c => c 0 / w0)
  let ys := corners.map (fun c => c 1 / w0)
  ⟨⌊xs.foldl min fltMax⌋, ⌊ys.foldl min fltMax⌋,
    ⌈xs.foldl max 0⌉, ⌈ys.foldl max 0⌉⟩

/-- Destination homogeneous pixel vector p_dest = (x, y, 1). -/
def dVec3 (x y : ℤ) : Fin 3 → DReal :=
  fun i => if i = 0 then some ((x : ℚ)) else if i = 1 then some ((y : ℚ)) else some 1

/-- Test of the source for the blender: a source pixel is skipped as black
when all three of its colour bands are exactly zero. -/
def blackPix (img : CImageModel) (x y : ℤ) : Prop :=
  img.pix x y 0 = 0 ∧ img.pix x y 1 = 0 ∧ img.pix x y 2 = 0

instance (img : CImageModel) (x y : ℤ) : Decidable (blackPix img x y) := by
  unfold blackPix; infer_instance

/-- Body of the double loop of AccumulateBlend (BlendImages.cpp lines
142-204) for one destination pixel (x, y): skip when outside the canvas;
inverse-map through Minv and dehomogenise; skip when the interpolation
footprint leaves the source (the comparisons are IEEE, false on NaN); skip
when any of the four surrounding source pixels is black in all three bands
(the source tests the four pixels one after the other); otherwise add
weight times the bilinearly interpolated colour to bands 0-2 and the weight
to band 3.  The weight is 1.0: the feathering TODO of lines 191-198 is an
unfilled stub. -/
def accumPixel (img : CImageModel) (Minv : DMat3) (a : AccModel) (x y : ℤ) :
    AccModel :=
  if x < 0 ∨ a.width ≤ x ∨ y < 0 ∨ a.height ≤ y then a
  else
    let p := dMatVec Minv (dVec3 x y)
    let x_src := dDiv (p 0) (p 2)
    let y_src := dDiv (p 1) (p 2)
    if (dLt x_src (some 0) || dLe (some ((img.width : ℚ) - 1)) x_src
        || dLt y_src (some 0) || dLe (some ((img.height : ℚ) - 1)) y_src) then a
    else
      let xf := dFloor x_src
      let yf := dFloor y_src
      let xc := xf + 1
      let yc := yf + 1
      if blackPix img xf yf ∨ blackPix img xc yf ∨ blackPix img xf yc ∨
          blackPix img xc yc then a
      else
        let weight : DReal := some 1
        { a with
          pix := fun x2 y2 b =>
            if x2 = x ∧ y2 = y then
              dAdd (a.pix x2 y2 b)
                (if hb : b.val < 3 then
                  dMul weight (PixelLerp img x_src y_src ⟨b.val, hb⟩)
                else weight)
            else a.pix x2 y2 b }

/-- Per-pixel, per-band increment that `accumPixel` adds at its own
coordinate: zero in every skip case, otherwise the weighted colour or weight
value.  Only the canvas shape of the accumulator enters the decision. -/
def accumDelta (img : CImageModel) (Minv : DMat3) (aw ah : ℤ) (x y : ℤ)
    (b : Fin 4) : DReal :=
  if x < 0 ∨ aw ≤ x ∨ y < 0 ∨ ah ≤ y then some 0
  else
    let p := dMatVec Minv (dVec3 x y)
    let x_src := dDiv (p 0) (p 2)
    let y_src := dDiv (p 1) (p 2)
    if (dLt x_src (some 0) || dLe (some ((img.width : ℚ) - 1)) x_src
        || dLt y_src (some 0) || dLe (some ((img.height : ℚ) - 1)) y_src) then some 0
    else
      let xf := dFloor x_src
      let yf := dFloor y_src
      let xc := xf + 1
      let yc := yf + 1
      if blackPix img xf yf ∨ blackPix img xc yf ∨ blackPix img xf yc ∨
          blackPix img xc yc then some 0
      else
        let weight : DReal := some 1
        if hb : b.val < 3 then dMul weight (PixelLerp img x_src y_src ⟨b.val, hb⟩)
        else weight

/-- Integer interval [a, b) as a list, the values taken by a C for loop
running from a while below b. -/
def intRange (a b : ℤ) : List ℤ :=
  (List.range (b - a).toNat).map (fun k : ℕ => a + (k : ℤ))

/-- Pixel visit order of the double loop of AccumulateBlend: y runs from
bb_min_y up to and including bb_max_y, and for each y, x runs from bb_min_x
up to but excluding bb_max_x. -/
def pixelSweep (xmin xmax ymin ymax : ℤ) : List (ℤ × ℤ) :=
  (intRange ymin (ymax + 1)).flatMap (fun y => (intRange xmin xmax).map (fun x => (x, y)))

/-- Embedding of AccumulateBlend (BlendImages.cpp lines 130-208): compute
the bounding box of the image under M, invert M with CTransform3x3::Inverse,
and fold the per-pixel body over the loop order.  The blendWidth parameter
is unused because the feathering weight TODO is an unfilled stub. -/
def AccumulateBlend (img : CImageModel) (acc : AccModel) (M : Mat3)
    (blendWidth : ℚ) : AccModel :=
  let bb := ImageBoundingBox img M
  let Minv := CTransform3x3.Inverse (toD M)
  (pixelSweep bb.min_x bb.max_x bb.min_y bb.max_y).foldl
    (fun a q => accumPixel img Minv a q.1 q.2) acc

/-- Concrete 3x3 image whose pixel (1, 0) is black in all bands and whose
other pixels are nonzero; exercises the black-pixel skip of the blender. -/
def cImg : CImageModel := ⟨3, 3, fun x y b => if x = 1 ∧ y = 0 then 0 else b.val + 1⟩

/-- Concrete 3x3 image with every pixel nonzero in every band. -/
def cImgW : CImageModel := ⟨3, 3, fun _ _ b => b.val + 1⟩

/-- Concrete 5x5 accumulator holding zero everywhere. -/
def cAcc : AccModel := ⟨5, 5, fun _ _ _ => some 0⟩

/-- Concrete transform for the blender examples: the identity. -/
def cM : Mat3 := ctransform3x3Ctor

/-- Concrete 3x3 image used by the bounding-box counterexample. -/
def cBoxImg : CImageModel := ⟨3, 3, fun _ _ _ => 0⟩

/-- Concrete projective transform with rows (-7 0 0), (0 1 -20), (1 0 2):
its four mapped corners have differing homogeneous coordinates, and all
mapped y coordinates are negative. -/
def cBoxM : Mat3 :=
  fun i j =>
    if i = 0 ∧ j = 0 then -7
    else if i = 1 ∧ j = 1 then 1
    else if i = 1 ∧ j = 2 then -20
    else if i = 2 ∧ j = 0 then 1
    else if i = 2 ∧ j = 2 then 2
    else 0

/-- Addition of the finite zero is the identity on the double model, also on
non-finite values. -/
theorem dAdd_zero_right (v : DReal) : dAdd v (some 0) = v := by
  cases v <;> simp [dAdd]

/-- Claim C10: a default-constructed CVector3 is claimed to have all three
components zero; evaluating the constructor over memory holding the value 5
shows component 0 is left at 5 while components 1 and 2 are zeroed, so the
initialisation loop starting at index 1 contradicts the declared intent
"default constructor (zero)". -/
theorem cvector3Ctor_component0_uninitialised :
    cvector3Ctor (fun _ => 5) 0 = 5 ∧
    cvector3Ctor (fun _ => 5) 1 = 0 ∧
    cvector3Ctor (fun _ => 5) 2 = 0 := by
  decide

/-- Claim C8: CTransform3x3::Inverse is claimed to guard every division and
signal singular inputs; evaluating it on the permutation matrix that swaps
the first two axes (an invertible matrix with pivot M0[0][0] = 0) shows the
unguarded division `1.0 / 0` floods the whole result with non-finite values
and no error is signalled. -/
theorem inverse_zero_pivot_not_guarded :
    CTransform3x3.Inverse (toD singularPivotMat) = fun _ _ => none := by
  decide

/-- Claim C2: with an empty inlier list, leastSquaresFit is claimed to
report a distinct failure; it instead divides by `inliers.size() = 0`,
stores non-finite (NaN) translation entries into M, and returns the same
code 0 that a successful nonempty fit returns. -/
theorem leastSquaresFit_zero_inliers_nan :
    (leastSquaresFit [] [] [] []).1 = 0 ∧
    (leastSquaresFit [] [] [] []).2 0 2 = none ∧
    (leastSquaresFit [] [] [] []).2 1 2 = none ∧
    (leastSquaresFit [⟨1, 0, 0⟩] [⟨1, 2, 3⟩] [⟨1, 1, 0⟩] [0]).1 = 0 ∧
    (leastSquaresFit [⟨1, 0, 0⟩] [⟨1, 2, 3⟩] [⟨1, 1, 0⟩] [0]).2 0 2 = some 2 := by
  refine ⟨rfl, ?_, ?_, rfl, ?_⟩ <;>
    norm_num [leastSquaresFit, inlierDisplacement, featureLoc, dDiv]

/-- Claim C6 counterexample: on the projective transform cBoxM the source
divides corners 1-3 by the homogeneous coordinate of corner 0 and clamps
the maxima at 0, so the returned box differs from the one claim C6
describes (each corner divided by its own homogeneous coordinate, extrema
over exactly the four corners). -/
theorem imageBoundingBox_differs_from_claim :
    ImageBoundingBox cBoxImg cBoxM ≠ ImageBoundingBoxClaimed cBoxImg cBoxM ∧
    ImageBoundingBox cBoxImg cBoxM = ⟨-7, -10, 0, 0⟩ ∧
    ImageBoundingBoxClaimed cBoxImg cBoxM = ⟨-4, -10, 0, -4⟩ := by
  have h1 : ImageBoundingBox cBoxImg cBoxM = ⟨-7, -10, 0, 0⟩ := by
    norm_num +decide [ImageBoundingBox, cBoxImg, cBoxM, matVec, vec3, fltMax,
      min_def, max_def, BBox.mk.injEq]
  have h2 : ImageBoundingBoxClaimed cBoxImg cBoxM = ⟨-4, -10, 0, -4⟩ := by
    norm_num +decide [ImageBoundingBoxClaimed, cBoxImg, cBoxM, matVec, vec3,
      min_def, max_def, BBox.mk.injEq, Int.ceil_neg]
  refine ⟨?_, h1, h2⟩
  rw [h1, h2]
  simp +decide [BBox.mk.injEq]

/-- Claim C6 (amended): ImageBoundingBox maps the four corners through the
transform, dehomogenises every corner by the homogeneous coordinate of
corner 0, and returns the floor of the minima taken over the four corners
and the initial value FLT_MAX, and the ceiling of the maxima taken over the
four corners and the initial value 0; it is a pure function of the image
shape and the transform. -/
theorem imageBoundingBox_amended_spec (img : CImageModel) (M : Mat3) :
    ImageBoundingBox img M = ImageBoundingBoxAmended img M := by
  rfl

/-- Claim C7 counterexample: with one pair-list line of displacement
(1, 0), BlendPairs assigns the second image position (-1, 0), which is not
the first position composed with Translation(1, 0) (that composition gives
(1, 0)): the chaining subtracts the displacement instead of multiplying by
the stored pairwise translation. -/
theorem blendPairs_position_differs_from_claim :
    positionMat ((blendPairsPositions [(1, 0)]).getD 1 (0, 0)) ≠
      matMul (positionMat ((blendPairsPositions [(1, 0)]).getD 0 (0, 0)))
        (Translation 1 0) := by
  intro h
  have h02 := congrFun (congrFun h 0) 2
  norm_num +decide [blendPairsPositions, chainPositions, positionMat, Translation,
    ctransform3x3Ctor, matMul] at h02

/-- Head of the chained position list: the starting position. -/
theorem chainPositions_head (p : ℚ × ℚ) (rels : List (ℚ × ℚ)) :
    (chainPositions p rels).getD 0 (0, 0) = p := by
  cases rels <;> rfl

/-- Recurrence of the chained position list: each position is the previous
one minus the displacement of the corresponding pair-list line. -/
theorem chainPositions_getD_succ :
    ∀ (rels : List (ℚ × ℚ)) (p : ℚ × ℚ) (i : ℕ), i < rels.length →
      (chainPositions p rels).getD (i + 1) (0, 0) =
        (((chainPositions p rels).getD i (0, 0)).1 - (rels.getD i (0, 0)).1,
          ((chainPositions p rels).getD i (0, 0)).2 - (rels.getD i (0, 0)).2) := by
  intro rels
  induction rels with
  | nil => intro p i hi; simp at hi
  | cons r rs ih =>
    intro p i hi
    cases i with
    | zero =>
      simp only [chainPositions, List.getD_cons_succ, List.getD_cons_zero]
      rw [chainPositions_head]
    | succ j =>
      simp only [chainPositions, List.getD_cons_succ]
      exact ih (p.1 - r.1, p.2 - r.2) j (by simpa using hi)

/-- Product of two translation matrices under the source matrix multiply:
translations compose by adding their offsets. -/
theorem matMul_translation (a b c d : ℚ) :
    matMul (Translation a b) (Translation c d) = Translation (a + c) (b + d) := by
  funext i j
  fin_cases i <;> fin_cases j <;>
    simp +decide [matMul, Translation, ctransform3x3Ctor] <;> ring

/-- Claim C7 (amended): BlendPairs assigns position (0, 0) to the first
image and, viewing positions as translation matrices, the position of every
further image is the previous position composed, by matrix multiplication,
with the inverse of the pairwise translation read from the connecting
pair-list line, i.e. with Translation(-dx, -dy). -/
theorem blendPairs_chain_amended (rels : List (ℚ × ℚ)) (i : Fin rels.length) :
    (blendPairsPositions rels).getD 0 (0, 0) = (0, 0) ∧
    positionMat ((blendPairsPositions rels).getD (i.val + 1) (0, 0)) =
      matMul (positionMat ((blendPairsPositions rels).getD i.val (0, 0)))
        (Translation (-(rels.getD i.val (0, 0)).1)
          (-(rels.getD i.val (0, 0)).2)) := by
  constructor
  · exact chainPositions_head _ _
  · rw [blendPairsPositions, chainPositions_getD_succ rels (0, 0) i.val i.isLt]
    show Translation _ _ = _
    rw [show positionMat ((chainPositions (0, 0) rels).getD i.val (0, 0)) =
          Translation ((chainPositions (0, 0) rels).getD i.val (0, 0)).1
            ((chainPositions (0, 0) rels).getD i.val (0, 0)).2 from rfl]
    rw [matMul_translation, sub_eq_add_neg, sub_eq_add_neg]

/-- Counting fold of countInliers, characterised: starting from any count
and any partial list, the fold adds the filtered indices at the end and
increases the count by their number. -/
theorem foldl_count_append (p : ℕ → Bool) :
    ∀ (L : List ℕ) (c : ℕ) (acc : List ℕ),
      L.foldl (fun st i => if p i then (st.1 + 1, st.2 ++ [i]) else st) (c, acc) =
        (c + (L.filter p).length, acc ++ L.filter p) := by
  intro L
  induction L with
  | nil => intro c acc; simp
  | cons a L ih =>
    intro c acc
    by_cases h : p a
    · simp only [List.foldl_cons, h, if_true, ih, List.filter_cons, List.length_cons]
      rw [Prod.mk.injEq]
      refine ⟨by omega, by simp⟩
    · simp only [List.foldl_cons, h, if_false, ih, List.filter_cons]
      simp [h]

/-- Claim C4: countInliers returns the number of matches whose f1 feature
location, mapped through the candidate transform, lies within the threshold
of the matched f2 feature location, together with exactly the list of
match-list indices (not feature ids) of those matches; the match list
itself is only read. -/
theorem countInliers_spec (f1 f2 : FeatureSet) (matchList : List FeatureMatch)
    (M : Mat3) (RANSACthresh : ℚ) :
    countInliers f1 f2 matchList M RANSACthresh =
      (((List.range matchList.length).filter
          (inlierTest f1 f2 matchList M RANSACthresh)).length,
        (List.range matchList.length).filter
          (inlierTest f1 f2 matchList M RANSACthresh)) := by
  unfold countInliers
  rw [foldl_count_append]
  simp

/-- Summing fold of leastSquaresFit, characterised: the running pair sum
equals the componentwise sums of the mapped displacement list. -/
theorem foldl_pair_sum (f : ℕ → ℚ × ℚ) :
    ∀ (L : List ℕ) (u v : ℚ),
      L.foldl (fun uv i => (uv.1 + (f i).1, uv.2 + (f i).2)) (u, v) =
        (u + (L.map (fun i => (f i).1)).sum, v + (L.map (fun i => (f i).2)).sum) := by
  intro L
  induction L with
  | nil => intro u v; simp
  | cons a L ih =>
    intro u v
    simp only [List.foldl_cons, ih, List.map_cons, List.sum_cons]
    rw [Prod.mk.injEq]
    refine ⟨by ring, by ring⟩

/-- Claim C3: with the translation motion model and a nonempty inlier list,
the transform built by leastSquaresFit carries in entries [0][2] and [1][2]
the arithmetic mean over the inliers of the displacements
(f2.location - f1.location), its remaining entries are the identity, and on
inliers whose displacements all equal one fixed (tx, ty) it recovers
exactly (tx, ty). -/
theorem leastSquaresFit_translation_mean (f1 f2 : FeatureSet)
    (matchList : List FeatureMatch) (inliers : List ℕ) (hne : inliers ≠ []) :
    (leastSquaresFit f1 f2 matchList inliers).2 0 2 =
      some ((inliers.map
        (fun i => (inlierDisplacement f1 f2 matchList i).1)).sum /
          (inliers.length : ℚ)) ∧
    (leastSquaresFit f1 f2 matchList inliers).2 1 2 =
      some ((inliers.map
        (fun i => (inlierDisplacement f1 f2 matchList i).2)).sum /
          (inliers.length : ℚ)) ∧
    (leastSquaresFit f1 f2 matchList inliers).2 0 0 = some 1 ∧
    (leastSquaresFit f1 f2 matchList inliers).2 1 1 = some 1 ∧
    (leastSquaresFit f1 f2 matchList inliers).2 2 2 = some 1 ∧
    (leastSquaresFit f1 f2 matchList inliers).2 0 1 = some 0 ∧
    (leastSquaresFit f1 f2 matchList inliers).2 1 0 = some 0 ∧
    (leastSquaresFit f1 f2 matchList inliers).2 2 0 = some 0 ∧
    (leastSquaresFit f1 f2 matchList inliers).2 2 1 = some 0 ∧
    (∀ tx ty : ℚ,
      (∀ i ∈ inliers, inlierDisplacement f1 f2 matchList i = (tx, ty)) →
      (leastSquaresFit f1 f2 matchList inliers).2 0 2 = some tx ∧
      (leastSquaresFit f1 f2 matchList inliers).2 1 2 = some ty) := by
  have hlen : ((inliers.length : ℚ)) ≠ 0 := by
    have : inliers.length ≠ 0 := by
      cases inliers with
      | nil => exact absurd rfl hne
      | cons a l => simp
    exact_mod_cast this
  have h02 : (leastSquaresFit f1 f2 matchList inliers).2 0 2 =
      some ((inliers.map
        (fun i => (inlierDisplacement f1 f2 matchList i).1)).sum /
          (inliers.length : ℚ)) := by
    simp only [leastSquaresFit, foldl_pair_sum, zero_add]
    simp +decide [dDiv, hlen]
  have h12 : (leastSquaresFit f1 f2 matchList inliers).2 1 2 =
      some ((inliers.map
        (fun i => (inlierDisplacement f1 f2 matchList i).2)).sum /
          (inliers.length : ℚ)) := by
    simp only [leastSquaresFit, foldl_pair_sum, zero_add]
    simp +decide [dDiv, hlen]
  refine ⟨h02, h12, by simp +decide [leastSquaresFit], by simp +decide [leastSquaresFit],
    by simp +decide [leastSquaresFit], by simp +decide [leastSquaresFit],
    by simp +decide [leastSquaresFit], by simp +decide [leastSquaresFit],
    by simp +decide [leastSquaresFit], ?_⟩
  intro tx ty hconst
  have hx : (inliers.map (fun i => (inlierDisplacement f1 f2 matchList i).1)).sum =
      (inliers.length : ℚ) * tx := by
    rw [List.sum_eq_card_nsmul _ tx]
    · simp [nsmul_eq_mul]
    · intro x hx
      obtain ⟨i, hi, rfl⟩ := List.mem_map.mp hx
      rw [hconst i hi]
  have hy : (inliers.map (fun i => (inlierDisplacement f1 f2 matchList i).2)).sum =
      (inliers.length : ℚ) * ty := by
    rw [List.sum_eq_card_nsmul _ ty]
    · simp [nsmul_eq_mul]
    · intro x hx
      obtain ⟨i, hi, rfl⟩ := List.mem_map.mp hx
      rw [hconst i hi]
  constructor
  · rw [h02, hx, mul_div_cancel_left₀ _ hlen]
  · rw [h12, hy, mul_div_cancel_left₀ _ hlen]

/-- Witness for claim C3 at a concrete synthetic correspondence: one
feature at (0, 0) matched to the same feature translated by (2, 3); the
least-squares transform recovers exactly that translation. -/
theorem leastSquaresFit_translation_mean_witness :
    (leastSquaresFit [⟨1, 0, 0⟩] [⟨1, 2, 3⟩] [⟨1, 1, 0⟩] [0]).2 0 2 =
      some (([0].map
        (fun i => (inlierDisplacement [⟨1, 0, 0⟩] [⟨1, 2, 3⟩] [⟨1, 1, 0⟩] i).1)).sum /
          (([0] : List ℕ).length : ℚ)) ∧
    (leastSquaresFit [⟨1, 0, 0⟩] [⟨1, 2, 3⟩] [⟨1, 1, 0⟩] [0]).2 0 2 = some 2 ∧
    (leastSquaresFit [⟨1, 0, 0⟩] [⟨1, 2, 3⟩] [⟨1, 1, 0⟩] [0]).2 1 2 = some 3 := by
  have h := leastSquaresFit_translation_mean [⟨1, 0, 0⟩] [⟨1, 2, 3⟩] [⟨1, 1, 0⟩] [0]
    (by simp)
  refine ⟨h.1, ?_⟩
  have hc := h.2.2.2.2.2.2.2.2.2 2 3 ?_
  · exact hc
  · intro i hi
    have : i = 0 := by simpa using hi
    subst this
    norm_num [inlierDisplacement, featureLoc]

/-- Best-so-far fold of the RANSAC loop, characterised: the kept hypothesis
is an element of the sample list that no sample beats strictly, and every
sample strictly before it scores strictly lower (first-found tie-break). -/
theorem foldl_best_spec (score : ℕ → ℕ) :
    ∀ (rest : List ℕ) (s0 : ℕ),
      ∃ k, k < (s0 :: rest).length ∧
        rest.foldl (fun b s => if score b < score s then s else b) s0 =
          (s0 :: rest).getD k 0 ∧
        (∀ j, j < (s0 :: rest).length →
          score ((s0 :: rest).getD j 0) ≤ score ((s0 :: rest).getD k 0)) ∧
        (∀ j, j < k →
          score ((s0 :: rest).getD j 0) < score ((s0 :: rest).getD k 0)) := by
  intro rest
  induction rest with
  | nil =>
    intro s0
    refine ⟨0, by simp, rfl, ?_, by omega⟩
    intro j hj
    have : j = 0 := by simpa using hj
    subst this
    exact le_refl _
  | cons x xs ih =>
    intro s0
    obtain ⟨k2, hk2len, hk2eq, hk2max, hk2first⟩ :=
      ih (if score s0 < score x then x else s0)
    by_cases hcmp : score s0 < score x
    · refine ⟨k2 + 1, by simpa using hk2len, ?_, ?_, ?_⟩
      · simpa [hcmp] using hk2eq
      · intro j hj
        cases j with
        | zero =>
          have h0 : score x ≤
              score ((x :: xs).getD k2 0) := by
            simpa [hcmp] using hk2max 0 (by simp)
          simpa using le_trans (le_of_lt hcmp) h0
        | succ j2 =>
          have := hk2max j2 (by simpa using hj)
          simpa [hcmp] using this
      · intro j hj
        cases j with
        | zero =>
          have h0 : score x ≤ score ((x :: xs).getD k2 0) := by
            simpa [hcmp] using hk2max 0 (by simp)
          simpa using lt_of_lt_of_le hcmp h0
        | succ j2 =>
          have := hk2first j2 (by omega)
          simpa [hcmp] using this
    · cases k2 with
      | zero =>
        refine ⟨0, by simp, ?_, ?_, by omega⟩
        · simpa [hcmp] using hk2eq
        · intro j hj
          cases j with
          | zero => exact le_refl _
          | succ j2 =>
            cases j2 with
            | zero =>
              simpa using le_of_not_lt hcmp
            | succ j3 =>
              have := hk2max (j3 + 1) (by simpa using hj)
              simpa [hcmp] using this
      | succ j2 =>
        refine ⟨j2 + 2, by simpa using hk2len, ?_, ?_, ?_⟩
        · simpa [hcmp] using hk2eq
        · intro j hj
          cases j with
          | zero =>
            have := hk2max 0 (by simp)
            simpa [hcmp] using this
          | succ j3 =>
            cases j3 with
            | zero =>
              have h1 : score s0 < score ((s0 :: xs).getD (j2 + 1) 0) := by
                simpa [hcmp] using hk2first 0 (by omega)
              have h2 : score x ≤ score s0 := le_of_not_lt hcmp
              have := le_of_lt (lt_of_le_of_lt h2 h1)
              simpa [hcmp] using this
            | succ j4 =>
              have := hk2max (j4 + 1) (by simpa using hj)
              simpa [hcmp] using this
        · intro j hj
          cases j with
          | zero =>
            have := hk2first 0 (by omega)
            simpa [hcmp] using this
          | succ j3 =>
            cases j3 with
            | zero =>
              have h1 : score s0 < score ((s0 :: xs).getD (j2 + 1) 0) := by
                simpa [hcmp] using hk2first 0 (by omega)
              have h2 : score x ≤ score s0 := le_of_not_lt hcmp
              have := lt_of_le_of_lt h2 h1
              simpa [hcmp] using this
            | succ j4 =>
              have := hk2first (j4 + 1) (by omega)
              simpa [hcmp] using this

/-- Claim C1: for any feature sets, nonempty match list, translation motion
model, at least one RANSAC iteration (the sampled match index of each
iteration being supplied in `samples`) and positive threshold, alignPair
stores in its output transform the least-squares refit over the inliers of
the sampled minimal hypothesis with the maximum inlier count, ties among
hypotheses broken by first-found. -/
theorem alignPair_spec (f1 f2 : FeatureSet) (matchList : List FeatureMatch)
    (samples : List ℕ) (RANSACthresh : ℚ) (hm : matchList ≠ [])
    (hs : samples ≠ []) (ht : 0 < RANSACthresh) :
    ∃ k, k < samples.length ∧
      (∀ j, j < samples.length →
        (countInliers f1 f2 matchList
          (minimalTranslation f1 f2 matchList (samples.getD j 0)) RANSACthresh).1 ≤
        (countInliers f1 f2 matchList
          (minimalTranslation f1 f2 matchList (samples.getD k 0)) RANSACthresh).1) ∧
      (∀ j, j < k →
        (countInliers f1 f2 matchList
          (minimalTranslation f1 f2 matchList (samples.getD j 0)) RANSACthresh).1 <
        (countInliers f1 f2 matchList
          (minimalTranslation f1 f2 matchList (samples.getD k 0)) RANSACthresh).1) ∧
      (alignPair f1 f2 matchList samples RANSACthresh).2 =
        (leastSquaresFit f1 f2 matchList
          (countInliers f1 f2 matchList
            (minimalTranslation f1 f2 matchList (samples.getD k 0))
            RANSACthresh).2).2 := by
  obtain ⟨s0, rest, rfl⟩ := List.exists_cons_of_ne_nil hs
  obtain ⟨k, hklen, hkeq, hkmax, hkfirst⟩ := foldl_best_spec
    (fun s => (countInliers f1 f2 matchList
      (minimalTranslation f1 f2 matchList s) RANSACthresh).1) rest s0
  refine ⟨k, hklen, fun j hj => hkmax j hj, fun j hj => hkfirst j hj, ?_⟩
  show (leastSquaresFit f1 f2 matchList
      (countInliers f1 f2 matchList
        (minimalTranslation f1 f2 matchList
          (rest.foldl (fun b s =>
            if (countInliers f1 f2 matchList
                  (minimalTranslation f1 f2 matchList b) RANSACthresh).1 <
                (countInliers f1 f2 matchList
                  (minimalTranslation f1 f2 matchList s) RANSACthresh).1
            then s else b) s0))
        RANSACthresh).2).2 = _
  rw [hkeq]

/-- Witness for claim C1 at a concrete instance: one match, one RANSAC
sample; the selected hypothesis is sample 0 and the output transform is the
least-squares fit over its inliers. -/
theorem alignPair_spec_witness :
    ∃ k, k < ([0] : List ℕ).length ∧
      (∀ j, j < ([0] : List ℕ).length →
        (countInliers [⟨1, 0, 0⟩] [⟨1, 2, 3⟩] [⟨1, 1, 0⟩]
          (minimalTranslation [⟨1, 0, 0⟩] [⟨1, 2, 3⟩] [⟨1, 1, 0⟩]
            (([0] : List ℕ).getD j 0)) 1).1 ≤
        (countInliers [⟨1, 0, 0⟩] [⟨1, 2, 3⟩] [⟨1, 1, 0⟩]
          (minimalTranslation [⟨1, 0, 0⟩] [⟨1, 2, 3⟩] [⟨1, 1, 0⟩]
            (([0] : List ℕ).getD k 0)) 1).1) ∧
      (∀ j, j < k →
        (countInliers [⟨1, 0, 0⟩] [⟨1, 2, 3⟩] [⟨1, 1, 0⟩]
          (minimalTranslation [⟨1, 0, 0⟩] [⟨1, 2, 3⟩] [⟨1, 1, 0⟩]
            (([0] : List ℕ).getD j 0)) 1).1 <
        (countInliers [⟨1, 0, 0⟩] [⟨1, 2, 3⟩] [⟨1, 1, 0⟩]
          (minimalTranslation [⟨1, 0, 0⟩] [⟨1, 2, 3⟩] [⟨1, 1, 0⟩]
            (([0] : List ℕ).getD k 0)) 1).1) ∧
      (alignPair [⟨1, 0, 0⟩] [⟨1, 2, 3⟩] [⟨1, 1, 0⟩] [0] 1).2 =
        (leastSquaresFit [⟨1, 0, 0⟩] [⟨1, 2, 3⟩] [⟨1, 1, 0⟩]
          (countInliers [⟨1, 0, 0⟩] [⟨1, 2, 3⟩] [⟨1, 1, 0⟩]
            (minimalTranslation [⟨1, 0, 0⟩] [⟨1, 2, 3⟩] [⟨1, 1, 0⟩]
              (([0] : List ℕ).getD k 0)) 1).2).2 :=
  alignPair_spec [⟨1, 0, 0⟩] [⟨1, 2, 3⟩] [⟨1, 1, 0⟩] [0] 1
    (by simp) (by simp) (by norm_num)

/-- Pixel characterisation of one loop-body execution: the body adds its
increment at its own destination coordinate and changes nothing else. -/
theorem accumPixel_pix (img : CImageModel) (Minv : DMat3) (a : AccModel)
    (x y x2 y2 : ℤ) (b : Fin 4) :
    (accumPixel img Minv a x y).pix x2 y2 b =
      if x2 = x ∧ y2 = y then
        dAdd (a.pix x2 y2 b) (accumDelta img Minv a.width a.height x y b)
      else a.pix x2 y2 b := by
  simp only [accumPixel, accumDelta]
  split_ifs <;> simp_all [dAdd_zero_right] <;> rw [dif_neg (by omega)]

/-- The loop body leaves the canvas width unchanged. -/
theorem accumPixel_width (img : CImageModel) (Minv : DMat3) (a : AccModel)
    (x y : ℤ) : (accumPixel img Minv a x y).width = a.width := by
  simp only [accumPixel]
  split_ifs <;> first | rfl | tauto

/-- The loop body leaves the canvas height unchanged. -/
theorem accumPixel_height (img : CImageModel) (Minv : DMat3) (a : AccModel)
    (x y : ℤ) : (accumPixel img Minv a x y).height = a.height := by
  simp only [accumPixel]
  split_ifs <;> first | rfl | tauto

/-- Membership in the integer interval list. -/
theorem mem_intRange {a b z : ℤ} : z ∈ intRange a b ↔ a ≤ z ∧ z < b := by
  constructor
  · intro hz
    simp only [intRange, List.mem_map] at hz
    obtain ⟨k, hk, hkz⟩ := hz
    have hk2 := List.mem_range.mp hk
    omega
  · intro h
    simp only [intRange, List.mem_map, List.mem_range]
    exact ⟨(z - a).toNat, by omega, by omega⟩

/-- The integer interval list has no duplicates. -/
theorem intRange_nodup (a b : ℤ) : (intRange a b).Nodup := by
  have h1 : Function.Injective (fun k : ℕ => a + (k : ℤ)) := by
    intro m n h
    simp only at h
    omega
  exact List.Nodup.map h1 (List.nodup_range _)

/-- Membership in the pixel sweep of the double loop. -/
theorem mem_pixelSweep {xmin xmax ymin ymax x y : ℤ} :
    (x, y) ∈ pixelSweep xmin xmax ymin ymax ↔
      xmin ≤ x ∧ x < xmax ∧ ymin ≤ y ∧ y ≤ ymax := by
  simp only [pixelSweep, List.mem_flatMap, List.mem_map, mem_intRange,
    Prod.mk.injEq]
  constructor
  · rintro ⟨y1, hy1, x1, hx1, rfl, rfl⟩
    omega
  · intro h
    exact ⟨y, by omega, x, by omega, rfl, rfl⟩

/-- The pixel sweep visits every destination pixel at most once. -/
theorem pixelSweep_nodup (xmin xmax ymin ymax : ℤ) :
    (pixelSweep xmin xmax ymin ymax).Nodup := by
  unfold pixelSweep
  rw [List.nodup_flatMap]
  constructor
  · intro yv hy
    exact (intRange_nodup xmin xmax).map (fun m n h => by
      simpa using congrArg Prod.fst h)
  · have hnd := intRange_nodup ymin (ymax + 1)
    refine List.Pairwise.imp ?_ hnd
    intro y1 y2 hne
    intro q hq1 hq2
    simp only [Function.onFun, List.mem_map] at hq1 hq2
    obtain ⟨x1, _, rfl⟩ := hq1
    obtain ⟨x2, _, hx2⟩ := hq2
    exact hne (by simpa using congrArg Prod.snd hx2.symm)

/-- Pixel characterisation of the whole sweep fold over a duplicate-free
visit list: each visited pixel receives exactly its own increment and every
unvisited pixel is unchanged. -/
theorem foldl_accumPixel_pix (img : CImageModel) (Minv : DMat3) :
    ∀ (L : List (ℤ × ℤ)), L.Nodup → ∀ (a : AccModel) (x y : ℤ) (b : Fin 4),
      (L.foldl (fun s q => accumPixel img Minv s q.1 q.2) a).pix x y b =
        if (x, y) ∈ L then
          dAdd (a.pix x y b) (accumDelta img Minv a.width a.height x y b)
        else a.pix x y b := by
  intro L
  induction L with
  | nil => intro _ a x y b; simp
  | cons p L ih =>
    intro hnd a x y b
    obtain ⟨hp, hnd2⟩ := List.nodup_cons.mp hnd
    simp only [List.foldl_cons]
    rw [ih hnd2, accumPixel_width, accumPixel_height, accumPixel_pix]
    by_cases hmem : (x, y) ∈ L
    · have hne : ¬(x = p.1 ∧ y = p.2) := by
        rintro ⟨rfl, rfl⟩
        exact hp (by simpa using hmem)
      simp [hmem, hne, List.mem_cons]
    · by_cases hpe : x = p.1 ∧ y = p.2
      · obtain ⟨rfl, rfl⟩ := hpe
        simp [hmem, List.mem_cons]
      · have hne3 : ¬((x, y) = p) := fun hc =>
          hpe ⟨congrArg Prod.fst hc, congrArg Prod.snd hc⟩
        have hmemc : ¬((x, y) ∈ p :: L) := by
          rw [List.mem_cons]
          rintro (hc | hc)
          · exact hne3 hc
          · exact hmem hc
        rw [if_neg hmem, if_neg hpe, if_neg hmemc]

/-- Pixel characterisation of AccumulateBlend: a destination pixel receives
its increment exactly when the double loop visits it (bb_min_x <= x <
bb_max_x, bb_min_y <= y <= bb_max_y) and is untouched otherwise. -/
theorem accumulateBlend_pix (img : CImageModel) (acc : AccModel) (M : Mat3)
    (bw : ℚ) (x y : ℤ) (b : Fin 4) :
    (AccumulateBlend img acc M bw).pix x y b =
      if (ImageBoundingBox img M).min_x ≤ x ∧ x < (ImageBoundingBox img M).max_x ∧
          (ImageBoundingBox img M).min_y ≤ y ∧ y ≤ (ImageBoundingBox img M).max_y then
        dAdd (acc.pix x y b)
          (accumDelta img (CTransform3x3.Inverse (toD M)) acc.width acc.height x y b)
      else acc.pix x y b := by
  simp only [AccumulateBlend]
  rw [foldl_accumPixel_pix img _ _ (pixelSweep_nodup _ _ _ _)]
  by_cases h : (ImageBoundingBox img M).min_x ≤ x ∧ x < (ImageBoundingBox img M).max_x ∧
      (ImageBoundingBox img M).min_y ≤ y ∧ y ≤ (ImageBoundingBox img M).max_y
  · rw [if_pos (mem_pixelSweep.mpr h), if_pos h]
  · rw [if_neg (fun hc => h (mem_pixelSweep.mp hc)), if_neg h]

/-- Claim C9: AccumulateBlend writes only to accumulator pixels that are
inside the canvas (0 <= x < width, 0 <= y < height) and inside the bounding
box of the transformed image; every accumulator entry outside that region
keeps its value.  The source image, taken as a read-only input, is returned
unmodified by construction of the embedding. -/
theorem accumulateBlend_frame (img : CImageModel) (acc : AccModel) (M : Mat3)
    (bw : ℚ) (x y : ℤ) (b : Fin 4)
    (h : ¬(0 ≤ x ∧ x < acc.width ∧ 0 ≤ y ∧ y < acc.height ∧
        (ImageBoundingBox img M).min_x ≤ x ∧ x ≤ (ImageBoundingBox img M).max_x ∧
        (ImageBoundingBox img M).min_y ≤ y ∧ y ≤ (ImageBoundingBox img M).max_y)) :
    (AccumulateBlend img acc M bw).pix x y b = acc.pix x y b := by
  rw [accumulateBlend_pix]
  by_cases hin : (ImageBoundingBox img M).min_x ≤ x ∧
      x < (ImageBoundingBox img M).max_x ∧
      (ImageBoundingBox img M).min_y ≤ y ∧ y ≤ (ImageBoundingBox img M).max_y
  · rw [if_pos hin]
    obtain ⟨h1, h2, h3, h4⟩ := hin
    have hcv : x < 0 ∨ acc.width ≤ x ∨ y < 0 ∨ acc.height ≤ y := by
      by_contra hc
      push_neg at hc
      exact h ⟨hc.1, hc.2.1, hc.2.2.1, hc.2.2.2, h1, by omega, h3, h4⟩
    unfold accumDelta
    rw [if_pos hcv]
    exact dAdd_zero_right _
  · rw [if_neg hin]

/-- Witness for claim C9 at a concrete input: the accumulator entry at the
out-of-canvas pixel (-1, 0) is unchanged by the blend. -/
theorem accumulateBlend_frame_witness :
    (AccumulateBlend cImg cAcc cM 0).pix (-1) 0 0 = cAcc.pix (-1) 0 0 :=
  accumulateBlend_frame cImg cAcc cM 0 (-1) 0 0 (by
    rintro ⟨h1, _⟩
    norm_num at h1)

/-- Application of a rational matrix in the double model agrees with the
exact rational matrix-vector product. -/
theorem dMatVec_toD (N : Mat3) (x y : ℤ) (i : Fin 3) :
    dMatVec (toD N) (dVec3 x y) i =
      some (matVec N (vec3 (x : ℚ) (y : ℚ) 1) i) := by
  simp +decide [dMatVec, matVec, toD, dVec3, vec3, dAdd, dMul]

/-- Evaluation of the per-pixel increment for a finite inverse matrix and a
nonzero homogeneous coordinate, at a pixel inside the canvas: the increment
is zero exactly in the skip cases of the source, and otherwise carries the
weighted bilinear colour (weight 1) or the weight. -/
theorem accumDelta_eval (img : CImageModel) (Minv : Mat3) (aw ah x y : ℤ)
    (xs ys : ℚ)
    (hc : ¬(x < 0 ∨ aw ≤ x ∨ y < 0 ∨ ah ≤ y))
    (hw : matVec Minv (vec3 (x : ℚ) (y : ℚ) 1) 2 ≠ 0)
    (hxs : xs = matVec Minv (vec3 (x : ℚ) (y : ℚ) 1) 0 /
      matVec Minv (vec3 (x : ℚ) (y : ℚ) 1) 2)
    (hys : ys = matVec Minv (vec3 (x : ℚ) (y : ℚ) 1) 1 /
      matVec Minv (vec3 (x : ℚ) (y : ℚ) 1) 2)
    (b : Fin 4) :
    accumDelta img (toD Minv) aw ah x y b =
      if xs < 0 ∨ (img.width : ℚ) - 1 ≤ xs ∨ ys < 0 ∨ (img.height : ℚ) - 1 ≤ ys
      then some 0
      else if blackPix img ⌊xs⌋ ⌊ys⌋ ∨ blackPix img (⌊xs⌋ + 1) ⌊ys⌋ ∨
          blackPix img ⌊xs⌋ (⌊ys⌋ + 1) ∨ blackPix img (⌊xs⌋ + 1) (⌊ys⌋ + 1)
      then some 0
      else if hb : b.val < 3 then
        dMul (some 1) (PixelLerp img (some xs) (some ys) ⟨b.val, hb⟩)
      else some 1 := by
  subst hxs hys
  unfold accumDelta
  rw [if_neg hc]
  simp only [dMatVec_toD, dDiv, if_neg hw, dLt, dLe, dFloor,
    Bool.or_eq_true, decide_eq_true_eq]
  split_ifs <;> first | rfl | tauto

/-- Normalisation is numerically the identity on a translation paired with
the identity matrix: every pivot equals 1. -/
theorem invNormalize_translation (tx ty : ℚ) (i : Fin 3) :
    CTransform3x3.invNormalize
      (toD (Translation tx ty), toD ctransform3x3Ctor) i =
      (toD (Translation tx ty), toD ctransform3x3Ctor) := by
  unfold CTransform3x3.invNormalize
  fin_cases i <;>
    · rw [Prod.mk.injEq]
      constructor <;>
        · funext r c
          fin_cases r <;> fin_cases c <;>
            norm_num +decide [dDiv, dMul, toD, Translation, ctransform3x3Ctor]

/-- Forward row elimination does nothing on a translation paired with the
identity: the eliminated entries are already zero. -/
theorem elimRow_translation_fwd (tx ty : ℚ) (i k : Fin 3) (h : i < k)
    (h2 : i.val < 2) :
    CTransform3x3.elimRow i k
      (toD (Translation tx ty), toD ctransform3x3Ctor) =
      (toD (Translation tx ty), toD ctransform3x3Ctor) := by
  unfold CTransform3x3.elimRow
  fin_cases i <;> fin_cases k <;> first
    | exact absurd h (by decide)
    | exact absurd h2 (by decide)
    | · rw [Prod.mk.injEq]
        constructor <;>
          · funext r c
            fin_cases r <;> fin_cases c <;>
              norm_num +decide [dSub, dMul, toD, Translation, ctransform3x3Ctor]

/-- One forward-elimination pass leaves a translation paired with the
identity unchanged. -/
theorem invForward_translation (tx ty : ℚ) (i : Fin 3) :
    CTransform3x3.invForward
      (toD (Translation tx ty), toD ctransform3x3Ctor) i =
      (toD (Translation tx ty), toD ctransform3x3Ctor) := by
  unfold CTransform3x3.invForward
  rw [invNormalize_translation]
  fin_cases i <;>
    simp +decide only [List.foldl_cons, List.foldl_nil, if_true, if_false]
  · rw [elimRow_translation_fwd, elimRow_translation_fwd] <;> decide
  · rw [elimRow_translation_fwd] <;> decide

set_option maxHeartbeats 1600000 in
/-- The backward-elimination step for pivot row 2 on the eliminated
translation state clears the translation column of M0 and writes the
negated translation into M1. -/
theorem invBackward2_translation (tx ty : ℚ) :
    CTransform3x3.invBackward
      (toD (Translation tx ty), toD ctransform3x3Ctor) 2 =
      (toD ctransform3x3Ctor, toD (Translation (-tx) (-ty))) := by
  unfold CTransform3x3.invBackward CTransform3x3.elimRow
  simp only [List.foldl_cons, List.foldl_nil]
  rw [Prod.mk.injEq]
  constructor <;>
    · funext r c
      fin_cases r <;> fin_cases c <;>
        norm_num +decide [dDiv, dMul, dSub, dAdd, toD, Translation,
          ctransform3x3Ctor]

set_option maxHeartbeats 1600000 in
/-- The backward-elimination step for pivot row 1 is numerically the
identity on the fully eliminated state. -/
theorem invBackward1_id (tx ty : ℚ) :
    CTransform3x3.invBackward
      (toD ctransform3x3Ctor, toD (Translation tx ty)) 1 =
      (toD ctransform3x3Ctor, toD (Translation tx ty)) := by
  unfold CTransform3x3.invBackward CTransform3x3.elimRow
  simp only [List.foldl_cons, List.foldl_nil]
  rw [Prod.mk.injEq]
  constructor <;>
    · funext r c
      fin_cases r <;> fin_cases c <;>
        norm_num +decide [dDiv, dMul, dSub, dAdd, toD, Translation,
          ctransform3x3Ctor]

/-- Inverse of a translation matrix under the source elimination: the
translation by the negated offsets; no division meets a zero divisor. -/
theorem inverse_translation (tx ty : ℚ) :
    CTransform3x3.Inverse (toD (Translation tx ty)) =
      toD (Translation (-tx) (-ty)) := by
  show (CTransform3x3.invBackward (CTransform3x3.invBackward
      (([0, 1, 2] : List (Fin 3)).foldl CTransform3x3.invForward
        (toD (Translation tx ty), toD ctransform3x3Ctor)) 2) 1).2 =
    toD (Translation (-tx) (-ty))
  rw [List.foldl_cons, invForward_translation, List.foldl_cons,
    invForward_translation, List.foldl_cons, invForward_translation,
    List.foldl_nil, invBackward2_translation, invBackward1_id]

/-- Claim C5 (amended): for a destination pixel visited by the double loop
(bb_min_x <= x < bb_max_x, bb_min_y <= y <= bb_max_y), inside the canvas,
with a finite inverse transform and a nonzero homogeneous coordinate, the
accumulator entry is left untouched exactly when the interpolation
footprint of the inverse-mapped source coordinate leaves the source image
or ANY of the four surrounding source pixels is zero in all three colour
bands; otherwise weight times the bilinearly interpolated colour (weight
being 1, the feathering stub) is added to the colour bands and the weight
to the weight band. -/
theorem accumulateBlend_skip_iff (img : CImageModel) (acc : AccModel)
    (M : Mat3) (bw : ℚ) (Minv : Mat3) (x y : ℤ) (xs ys aq : ℚ)
    (hMinv : CTransform3x3.Inverse (toD M) = toD Minv)
    (hbbx1 : (ImageBoundingBox img M).min_x ≤ x)
    (hbbx2 : x < (ImageBoundingBox img M).max_x)
    (hbby1 : (ImageBoundingBox img M).min_y ≤ y)
    (hbby2 : y ≤ (ImageBoundingBox img M).max_y)
    (hcx1 : 0 ≤ x) (hcx2 : x < acc.width) (hcy1 : 0 ≤ y) (hcy2 : y < acc.height)
    (hw : matVec Minv (vec3 (x : ℚ) (y : ℚ) 1) 2 ≠ 0)
    (hxs : xs = matVec Minv (vec3 (x : ℚ) (y : ℚ) 1) 0 /
      matVec Minv (vec3 (x : ℚ) (y : ℚ) 1) 2)
    (hys : ys = matVec Minv (vec3 (x : ℚ) (y : ℚ) 1) 1 /
      matVec Minv (vec3 (x : ℚ) (y : ℚ) 1) 2)
    (hacc : acc.pix x y 3 = some aq) :
    ((∀ b : Fin 4, (AccumulateBlend img acc M bw).pix x y b = acc.pix x y b) ↔
      (xs < 0 ∨ (img.width : ℚ) - 1 ≤ xs ∨ ys < 0 ∨ (img.height : ℚ) - 1 ≤ ys ∨
        blackPix img ⌊xs⌋ ⌊ys⌋ ∨ blackPix img (⌊xs⌋ + 1) ⌊ys⌋ ∨
        blackPix img ⌊xs⌋ (⌊ys⌋ + 1) ∨ blackPix img (⌊xs⌋ + 1) (⌊ys⌋ + 1))) ∧
    (¬(xs < 0 ∨ (img.width : ℚ) - 1 ≤ xs ∨ ys < 0 ∨ (img.height : ℚ) - 1 ≤ ys ∨
        blackPix img ⌊xs⌋ ⌊ys⌋ ∨ blackPix img (⌊xs⌋ + 1) ⌊ys⌋ ∨
        blackPix img ⌊xs⌋ (⌊ys⌋ + 1) ∨ blackPix img (⌊xs⌋ + 1) (⌊ys⌋ + 1)) →
      ((∀ b : Fin 3, (AccumulateBlend img acc M bw).pix x y b.castSucc =
          dAdd (acc.pix x y b.castSucc)
            (dMul (some 1) (PixelLerp img (some xs) (some ys) b))) ∧
        (AccumulateBlend img acc M bw).pix x y 3 =
          dAdd (acc.pix x y 3) (some 1))) := by
  have hchar : ∀ b : Fin 4, (AccumulateBlend img acc M bw).pix x y b =
      dAdd (acc.pix x y b)
        (accumDelta img (CTransform3x3.Inverse (toD M))
          acc.width acc.height x y b) := by
    intro b
    rw [accumulateBlend_pix, if_pos ⟨hbbx1, hbbx2, hbby1, hbby2⟩]
  have hdelta : ∀ b : Fin 4,
      accumDelta img (CTransform3x3.Inverse (toD M)) acc.width acc.height x y b =
        if xs < 0 ∨ (img.width : ℚ) - 1 ≤ xs ∨ ys < 0 ∨ (img.height : ℚ) - 1 ≤ ys
        then some 0
        else if blackPix img ⌊xs⌋ ⌊ys⌋ ∨ blackPix img (⌊xs⌋ + 1) ⌊ys⌋ ∨
            blackPix img ⌊xs⌋ (⌊ys⌋ + 1) ∨ blackPix img (⌊xs⌋ + 1) (⌊ys⌋ + 1)
        then some 0
        else if hb : b.val < 3 then
          dMul (some 1) (PixelLerp img (some xs) (some ys) ⟨b.val, hb⟩)
        else some 1 := by
    intro b
    rw [hMinv]
    exact accumDelta_eval img Minv acc.width acc.height x y xs ys
      (by omega) hw hxs hys b
  constructor
  · constructor
    · intro hall
      by_contra hskip
      have hA2 : ¬(xs < 0 ∨ (img.width : ℚ) - 1 ≤ xs ∨ ys < 0 ∨
          (img.height : ℚ) - 1 ≤ ys) := fun h => hskip (by tauto)
      have hK2 : ¬(blackPix img ⌊xs⌋ ⌊ys⌋ ∨ blackPix img (⌊xs⌋ + 1) ⌊ys⌋ ∨
          blackPix img ⌊xs⌋ (⌊ys⌋ + 1) ∨ blackPix img (⌊xs⌋ + 1) (⌊ys⌋ + 1)) :=
        fun h => hskip (by tauto)
      have h3 := hall 3
      rw [hchar 3, hdelta 3, if_neg hA2, if_neg hK2, dif_neg (by decide),
        hacc] at h3
      simp [dAdd] at h3
    · intro hskip b
      rw [hchar b, hdelta b]
      have hAK : (xs < 0 ∨ (img.width : ℚ) - 1 ≤ xs ∨ ys < 0 ∨
            (img.height : ℚ) - 1 ≤ ys) ∨
          (blackPix img ⌊xs⌋ ⌊ys⌋ ∨ blackPix img (⌊xs⌋ + 1) ⌊ys⌋ ∨
            blackPix img ⌊xs⌋ (⌊ys⌋ + 1) ∨ blackPix img (⌊xs⌋ + 1) (⌊ys⌋ + 1)) := by
        tauto
      rcases hAK with hA2 | hK2
      · rw [if_pos hA2]
        exact dAdd_zero_right _
      · by_cases hA3 : xs < 0 ∨ (img.width : ℚ) - 1 ≤ xs ∨ ys < 0 ∨
            (img.height : ℚ) - 1 ≤ ys
        · rw [if_pos hA3]
          exact dAdd_zero_right _
        · rw [if_neg hA3, if_pos hK2]
          exact dAdd_zero_right _
  · intro hns
    have hA2 : ¬(xs < 0 ∨ (img.width : ℚ) - 1 ≤ xs ∨ ys < 0 ∨
        (img.height : ℚ) - 1 ≤ ys) := fun h => hns (by tauto)
    have hK2 : ¬(blackPix img ⌊xs⌋ ⌊ys⌋ ∨ blackPix img (⌊xs⌋ + 1) ⌊ys⌋ ∨
        blackPix img ⌊xs⌋ (⌊ys⌋ + 1) ∨ blackPix img (⌊xs⌋ + 1) (⌊ys⌋ + 1)) :=
      fun h => hns (by tauto)
    constructor
    · intro b
      rw [hchar b.castSucc, hdelta b.castSucc, if_neg hA2, if_neg hK2,
        dif_pos (show (Fin.castSucc b).val < 3 from b.isLt)]
      rfl
    · rw [hchar 3, hdelta 3, if_neg hA2, if_neg hK2, dif_neg (by decide)]

/-- Claim C5 counterexample: at destination pixel (1, 2) of the blend of
cImg under Translation(1, 2) - a pixel inside the bounding box and the
canvas whose inverse-mapped source coordinate (0, 0) has its interpolation
footprint inside the source - the four surrounding source pixels are NOT
all zero (only pixel (1, 0) is black), yet the accumulator entry is left
untouched: the source skips when ANY of the four pixels is black, not when
all four are. -/
theorem accumulateBlend_black_skip_counterexample :
    ImageBoundingBox cImg (Translation 1 2) = ⟨1, 2, 3, 4⟩ ∧
    blackPix cImg 1 0 ∧ ¬blackPix cImg 0 0 ∧ ¬blackPix cImg 0 1 ∧
    ¬blackPix cImg 1 1 ∧
    (AccumulateBlend cImg cAcc (Translation 1 2) 0).pix 1 2 3 =
      cAcc.pix 1 2 3 := by
  have hbb : ImageBoundingBox cImg (Translation 1 2) = ⟨1, 2, 3, 4⟩ := by
    norm_num +decide [ImageBoundingBox, cImg, matVec, vec3, fltMax, Translation,
      ctransform3x3Ctor, min_def, max_def, BBox.mk.injEq]
  refine ⟨hbb, by norm_num [blackPix, cImg], by norm_num [blackPix, cImg],
    by norm_num [blackPix, cImg], by norm_num [blackPix, cImg], ?_⟩
  rw [accumulateBlend_pix, hbb]
  rw [if_pos (by constructor <;> [decide; constructor <;> [decide;
    constructor <;> decide]])]
  rw [inverse_translation]
  rw [accumDelta_eval cImg (Translation (-1) (-2)) cAcc.width cAcc.height 1 2 0 0
    (by norm_num [cAcc])
    (by norm_num +decide [matVec, vec3, Translation, ctransform3x3Ctor])
    (by norm_num +decide [matVec, vec3, Translation, ctransform3x3Ctor])
    (by norm_num +decide [matVec, vec3, Translation, ctransform3x3Ctor]) 3]
  rw [if_neg (by norm_num [cImg])]
  rw [if_pos (by norm_num [blackPix, cImg])]
  exact dAdd_zero_right _

/-- Witness for claim C5 (amended) at a concrete input: pixel (1, 2) of the
blend of the all-nonzero image cImgW under Translation(1, 2); the skip
condition is false there, so the accumulator entry receives the
interpolated colour and the weight. -/
theorem accumulateBlend_skip_iff_witness :
    ((∀ b : Fin 4, (AccumulateBlend cImgW cAcc (Translation 1 2) 0).pix 1 2 b =
        cAcc.pix 1 2 b) ↔
      ((0 : ℚ) < 0 ∨ (cImgW.width : ℚ) - 1 ≤ 0 ∨ (0 : ℚ) < 0 ∨
        (cImgW.height : ℚ) - 1 ≤ 0 ∨
        blackPix cImgW ⌊(0 : ℚ)⌋ ⌊(0 : ℚ)⌋ ∨
        blackPix cImgW (⌊(0 : ℚ)⌋ + 1) ⌊(0 : ℚ)⌋ ∨
        blackPix cImgW ⌊(0 : ℚ)⌋ (⌊(0 : ℚ)⌋ + 1) ∨
        blackPix cImgW (⌊(0 : ℚ)⌋ + 1) (⌊(0 : ℚ)⌋ + 1))) ∧
    (¬((0 : ℚ) < 0 ∨ (cImgW.width : ℚ) - 1 ≤ 0 ∨ (0 : ℚ) < 0 ∨
        (cImgW.height : ℚ) - 1 ≤ 0 ∨
        blackPix cImgW ⌊(0 : ℚ)⌋ ⌊(0 : ℚ)⌋ ∨
        blackPix cImgW (⌊(0 : ℚ)⌋ + 1) ⌊(0 : ℚ)⌋ ∨
        blackPix cImgW ⌊(0 : ℚ)⌋ (⌊(0 : ℚ)⌋ + 1) ∨
        blackPix cImgW (⌊(0 : ℚ)⌋ + 1) (⌊(0 : ℚ)⌋ + 1)) →
      ((∀ b : Fin 3,
          (AccumulateBlend cImgW cAcc (Translation 1 2) 0).pix 1 2 b.castSucc =
            dAdd (cAcc.pix 1 2 b.castSucc)
              (dMul (some 1) (PixelLerp cImgW (some 0) (some 0) b))) ∧
        (AccumulateBlend cImgW cAcc (Translation 1 2) 0).pix 1 2 3 =
          dAdd (cAcc.pix 1 2 3) (some 1))) := by
  have hbb : ImageBoundingBox cImgW (Translation 1 2) = ⟨1, 2, 3, 4⟩ := by
    norm_num +decide [ImageBoundingBox, cImgW, matVec, vec3, fltMax, Translation,
      ctransform3x3Ctor, min_def, max_def, BBox.mk.injEq]
  exact accumulateBlend_skip_iff cImgW cAcc (Translation 1 2) 0
    (Translation (-1) (-2)) 1 2 0 0 0
    (inverse_translation 1 2)
    (by rw [hbb]) (by rw [hbb]; decide) (by rw [hbb]) (by rw [hbb]; decide)
    (by decide) (by norm_num [cAcc]) (by decide) (by norm_num [cAcc])
    (by norm_num +decide [matVec, vec3, Translation, ctransform3x3Ctor])
    (by norm_num +decide [matVec, vec3, Translation, ctransform3x3Ctor])
    (by norm_num +decide [matVec, vec3, Translation, ctransform3x3Ctor])
    rfl
